import Mathlib

/-!
Shallow embedding of the chained hash table in src/hashTable.c.

Modelling conventions:
* `void*` data values become an arbitrary type `α`; the caller-supplied
  function triple `HTFunctions` (hash / compare / destroy) keeps its C name,
  with `hash : α → Nat` (C `unsigned`) and `compare : α → α → Int`
  (zero means equivalent).  The `destroy` callback only matters for memory
  management and is omitted from the functional model.
* A bucket (C `ListNode` chain) is a `List (HTEntry α)`; the bucket array
  `ht` is a `List (List (HTEntry α))` of length `sizes[index]`.
* C `float` load factors are modelled as exact rationals `ℚ`; the
  comparisons in `checkRehash` are performed exactly.
* C `assert` faults and `malloc`-failure aborts are modelled by `Option`:
  `htCreate` returns `none` exactly when one of its asserted preconditions
  fails; allocation always succeeds in the model.
* Counters `numItem` (unique entries) and `total` (sum of frequencies) are
  `Nat`; the C code stores them in non-negative `int`s.
-/

/-- One stored entry: a value and the number of times an equivalent value
has been inserted (C struct `HTEntry`). -/
structure HTEntry (α : Type) where
  data : α
  frequency : Nat
  deriving Repr, DecidableEq

/-- The result type of `htLookUp`: the C code returns an `HTEntry` whose
`data` is `NULL` (here `none`) and whose frequency is `0` when no match is
found. -/
structure HTResult (α : Type) where
  data : Option α
  frequency : Nat
  deriving Repr, DecidableEq

/-- The metrics record returned by `htMetrics` (C struct `HTMetrics`);
`avgChainLength` is a C `float`, modelled as `ℚ` (with `q / 0 = 0` standing
in for the IEEE NaN that the C code produces on an empty table). -/
structure HTMetrics where
  numberOfChains : Nat
  maxChainLength : Nat
  avgChainLength : ℚ
  deriving Repr, DecidableEq

/-- The caller-supplied function pair used by the table (C struct
`HTFunctions`, minus the memory-management-only `destroy` callback). -/
structure HTFunctions (α : Type) where
  hash : α → Nat
  compare : α → α → Int

/-- The table itself (C struct `HashTable`).  `numSizes` is `sizes.length`;
the C struct stores it separately only because C arrays do not know their
length. -/
structure HashTable (α : Type) where
  functions : HTFunctions α
  sizes : List Nat
  index : Nat
  numItem : Nat
  total : Nat
  lf : ℚ
  ht : List (List (HTEntry α))

namespace HashTable

variable {α : Type}

/-- Current capacity `sizes[index]`. -/
def cap (t : HashTable α) : Nat := t.sizes.getD t.index 0

/-- All entries currently stored, in bucket order then chain order; this is
exactly the sequence the C code visits when it iterates the whole table. -/
def entries (t : HashTable α) : List (HTEntry α) := t.ht.flatten

/-- Prepend entry `e` to bucket `i` of a bucket array (the C idiom
`curr->next = nht[index]; nht[index] = curr;`). -/
def bucketCons (nht : List (List (HTEntry α))) (i : Nat) (e : HTEntry α) :
    List (List (HTEntry α)) :=
  nht.set i (e :: nht.getD i [])

/-- `hrehash` (hashTable.c:23): walk one old chain and move each node to the
head of its bucket in the new array, the bucket being recomputed with the
post-increment `index` (the new capacity `cap`). -/
def hrehash (f : HTFunctions α) (cap : Nat) :
    List (HTEntry α) → List (List (HTEntry α)) → List (List (HTEntry α))
  | [], nht => nht
  | e :: rest, nht => hrehash f cap rest (bucketCons nht (f.hash e.data % cap) e)

/-- `rehash` (hashTable.c:43): advance `index`, allocate a zeroed array of
the new size, and relink every node of every old bucket into it. -/
def rehash (t : HashTable α) : HashTable α :=
  let nIndex := t.index + 1
  let ncap := t.sizes.getD nIndex 0
  let nht := t.ht.foldl (fun acc chain => hrehash t.functions ncap chain acc)
      (List.replicate ncap [])
  { t with index := nIndex, ht := nht }

/-- `checkRehash` (hashTable.c:61): rehash exactly when the load factor is
not 1, a larger schedule entry exists, and the pre-insert ratio
`numItem / sizes[index]` strictly exceeds the load factor.  The ratio is
written with `Rat.divInt` (the same rational as
`(numItem : ℚ) / sizes[index]`, see `checkRehash_ratio_eq_div`) so that
concrete tables evaluate by kernel reduction. -/
def checkRehash (t : HashTable α) : HashTable α :=
  if t.lf ≠ 1 ∧ t.index < t.sizes.length - 1 ∧
      Rat.divInt (t.numItem : Int) (t.sizes.getD t.index 0 : Int) > t.lf
  then rehash t else t

/-- `addEntry` (hashTable.c:150): a fresh entry starts at frequency 1. -/
def addEntry (data : α) : HTEntry α := ⟨data, 1⟩

/-- Scan a chain for the first entry the compare function judges equivalent
to `x`; on a hit, return the chain with that entry's frequency incremented
together with the new frequency.  This is the loop of `addTail`
(hashTable.c:163); the C code's transient `numItem += 1; numItem -= 1`
in the duplicate branch cancels and is not modelled. -/
def bumpChain (cmp : α → α → Int) (x : α) :
    List (HTEntry α) → Option (List (HTEntry α) × Nat)
  | [] => none
  | e :: rest =>
    if cmp e.data x = 0 then
      some (⟨e.data, e.frequency + 1⟩ :: rest, e.frequency + 1)
    else
      match bumpChain cmp x rest with
      | none => none
      | some (rest', fr) => some (e :: rest', fr)

/-- `addTail` (hashTable.c:159): on a duplicate, bump the matched entry's
frequency and `total`; otherwise push a fresh frequency-1 entry at the head
of bucket `hi` and bump both counters.  Returns the updated table and the
frequency reported to the caller. -/
def addTail (t : HashTable α) (hi : Nat) (x : α) : HashTable α × Nat :=
  match bumpChain t.functions.compare x (t.ht.getD hi []) with
  | some (chain', fr) =>
      ({ t with ht := t.ht.set hi chain', total := t.total + 1 }, fr)
  | none =>
      ({ t with ht := t.ht.set hi (addEntry x :: t.ht.getD hi []),
                numItem := t.numItem + 1, total := t.total + 1 }, 1)

/-- `htAdd` (hashTable.c:139): growth check first, then the bucket is
computed under the (possibly just grown) capacity, then `addTail`. -/
def htAdd (t : HashTable α) (x : α) : HashTable α × Nat :=
  let t1 := checkRehash t
  let hi := t1.functions.hash x % t1.sizes.getD t1.index 0
  addTail t1 hi x

/-- Fold `htAdd` over a list of values, keeping only the tables. -/
def htAddList (t : HashTable α) (xs : List α) : HashTable α :=
  xs.foldl (fun t x => (htAdd t x).1) t

/-- The scan loop of `htLookUp`: first entry of the chain the compare
function judges equivalent to `x`. -/
def findEntry (cmp : α → α → Int) (x : α) :
    List (HTEntry α) → Option (HTEntry α)
  | [] => none
  | e :: rest => if cmp e.data x = 0 then some e else findEntry cmp x rest

/-- `htLookUp` (hashTable.c:179): compute the bucket under the current
capacity, scan it; on a match return a shallow view of the entry, otherwise
the `{NULL, 0}` sentinel. -/
def htLookUp (t : HashTable α) (x : α) : HTResult α :=
  match findEntry t.functions.compare x
      (t.ht.getD (t.functions.hash x % t.sizes.getD t.index 0) []) with
  | some e => ⟨some e.data, e.frequency⟩
  | none => ⟨none, 0⟩

/-- `toArray` (hashTable.c:198): append one chain's entries, in chain order,
after the entries already collected (the C code writes at a running
cursor `*s`). -/
def toArray (arr : List (HTEntry α)) : List (HTEntry α) → List (HTEntry α)
  | [] => arr
  | e :: rest => toArray (arr ++ [e]) rest

/-- `htToArray` (hashTable.c:206): collect every bucket in order; report the
number of entries written through the `size` out-parameter (second
component), and return `none` (C `NULL`) instead of the array when nothing
was written. -/
def htToArray (t : HashTable α) : Option (List (HTEntry α)) × Nat :=
  let arr := t.ht.foldl toArray []
  (if arr.length = 0 then none else some arr, arr.length)

/-- `htCapacity` (hashTable.c:226). -/
def htCapacity (t : HashTable α) : Nat := t.sizes.getD t.index 0

/-- `htUniqueEntries` (hashTable.c:231). -/
def htUniqueEntries (t : HashTable α) : Nat := t.numItem

/-- `htTotalEntries` (hashTable.c:236). -/
def htTotalEntries (t : HashTable α) : Nat := t.total

/-- One iteration of the bucket loop of `htMetrics` (hashTable.c:257),
with `updateChain` (hashTable.c:241) inlined: the accumulator is
`(num, max, total)`; a non-empty chain bumps `num`, a chain longer than the
running maximum replaces it, and every chain's length is added to `total`. -/
def metricsStep (acc : Nat × Nat × Nat) (chain : List (HTEntry α)) :
    Nat × Nat × Nat :=
  let count := chain.length
  ((if chain.isEmpty then acc.1 else acc.1 + 1),
   (if count > acc.2.1 then count else acc.2.1),
   acc.2.2 + count)

/-- `htMetrics` (hashTable.c:251): scan all buckets once and report the
number of non-empty chains, the maximum chain length, and `total / num`
computed without guarding `num = 0` (the C code divides by zero there,
yielding NaN; the `ℚ` model yields the junk value 0). -/
def htMetrics (t : HashTable α) : HTMetrics :=
  let acc := t.ht.foldl metricsStep (0, 0, 0)
  ⟨acc.1, acc.2.1, (acc.2.2 : ℚ) / (acc.1 : ℚ)⟩

/-- The loop of `setSizeArray` (hashTable.c:67) as a predicate: each size
must be greater than 1 and strictly greater than the previous one (`prev`
starts at 0). -/
def setSizeArrayOk : Nat → List Nat → Bool
  | _, [] => true
  | prev, s :: rest => (decide (s > 1) && decide (s > prev)) && setSizeArrayOk s rest

/-- `htCreate` (hashTable.c:83): `none` models an assertion fault.  The
asserts are `numSizes > 0`, `0 < rehashLoadFactor ≤ 1`, and (inside
`setSizeArray`) the per-element checks of `setSizeArrayOk`.  On success the
schedule and function set are copied, the counters and cursor are zero, and
the bucket array has `sizes[0]` empty slots. -/
def htCreate (functions : HTFunctions α) (sizes : List Nat) (lf : ℚ) :
    Option (HashTable α) :=
  if 0 < sizes.length ∧ 0 < lf ∧ lf ≤ 1 ∧ setSizeArrayOk 0 sizes then
    some { functions := functions, sizes := sizes, index := 0, numItem := 0,
           total := 0, lf := lf, ht := List.replicate (sizes.getD 0 0) [] }
  else none

/-- `exFns`: a concrete function set over `Nat` used for witnesses, with the
identity hash and a subtraction comparator (zero exactly on equality), in
the style of the comparators the test driver supplies. -/
def exFns : HTFunctions Nat := ⟨fun n => n, fun a b => (a : Int) - (b : Int)⟩

/-- The table `htCreate exFns [10, 30, 999] (49/100)` evaluates to; used as
the concrete instance in witnesses. -/
def exT0 : HashTable Nat :=
  { functions := exFns, sizes := [10, 30, 999], index := 0, numItem := 0,
    total := 0, lf := Rat.divInt 49 100, ht := List.replicate 10 [] }

/-- The hash/compare pair behaves like a genuine hash table collaborator:
the compare function's kernel is an equivalence and equivalent values hash
identically (hashTable.h requires compare to return zero on equivalence). -/
structure GoodFns (f : HTFunctions α) : Prop where
  cmp_refl : ∀ x, f.compare x x = 0
  cmp_symm : ∀ x y, f.compare x y = 0 → f.compare y x = 0
  cmp_trans : ∀ x y z, f.compare x y = 0 → f.compare y z = 0 → f.compare x z = 0
  hash_eq : ∀ x y, f.compare x y = 0 → f.hash x = f.hash y

/-- The representation invariant of a table: a valid schedule, a cursor in
range, a bucket array of the active size, incrementally-maintained counters
that match the stored entries, every entry sitting in the bucket its hash
selects, and at most one entry per equivalence class. -/
structure WF (t : HashTable α) : Prop where
  sizes_gt : ∀ s ∈ t.sizes, 1 < s
  sizes_chain : t.sizes.Chain' (· < ·)
  index_lt : t.index < t.sizes.length
  ht_len : t.ht.length = t.cap
  numItem_eq : t.numItem = t.entries.length
  total_eq : t.total = (t.entries.map HTEntry.frequency).sum
  placed : ∀ i, ∀ e ∈ t.ht.getD i [], t.functions.hash e.data % t.cap = i
  uniq : t.entries.Pairwise (fun a b => t.functions.compare a.data b.data ≠ 0)

/-- The growth guard of `checkRehash`, as a named predicate. -/
def growthGuard (t : HashTable α) : Prop :=
  t.lf ≠ 1 ∧ t.index < t.sizes.length - 1 ∧
    Rat.divInt (t.numItem : Int) (t.sizes.getD t.index 0 : Int) > t.lf

instance (t : HashTable α) : Decidable (growthGuard t) := by
  unfold growthGuard; infer_instance

/-- State after inserting `k` members of the class of `x` into a table `t`
that did not previously contain that class: one representative entry of
frequency `k`, everything else unmatched, counters advanced accordingly. -/
def classState (t t' : HashTable α) (x : α) (k : Nat) : Prop :=
  ∃ d l, t.functions.compare d x = 0 ∧
    (∀ e ∈ l, t.functions.compare e.data x ≠ 0) ∧
    t'.entries.Perm ((⟨d, k⟩ : HTEntry α) :: l) ∧
    WF t' ∧ t'.functions = t.functions ∧ t'.sizes = t.sizes ∧
    t'.lf = t.lf ∧ t'.numItem = t.numItem + 1 ∧ t'.total = t.total + k

/-- Spec-side reading of the metrics (hashTable.h notes 1-3): the count of
non-empty chains in the bucket array. -/
def numberOfChainsSpec (t : HashTable α) : Nat :=
  (t.ht.filter (fun c => !c.isEmpty)).length

/-- Spec-side reading: the length of the longest chain. -/
def maxChainLengthSpec (t : HashTable α) : Nat :=
  (t.ht.map List.length).foldr Nat.max 0

/-- Spec-side reading: the sum of the lengths of all chains. -/
def sumChainLengthsSpec (t : HashTable α) : Nat :=
  (t.ht.map List.length).sum

section ListHelpers

variable {β : Type}

theorem getD_set_self (l : List β) (i : Nat) (c d : β) (h : i < l.length) :
    (l.set i c).getD i d = c := by
  simp [List.getD_eq_getElem?_getD, List.getElem?_set_self (by simpa using h)]

theorem getD_set_of_ne (l : List β) {i j : Nat} (c d : β) (h : i ≠ j) :
    (l.set i c).getD j d = l.getD j d := by
  simp [List.getD_eq_getElem?_getD, List.getElem?_set_ne h]

theorem getD_mem_of_lt (l : List β) (i : Nat) (d : β) (h : i < l.length) :
    l.getD i d ∈ l := by
  rw [List.getD_eq_getElem?_getD, List.getElem?_eq_getElem h]
  exact List.getElem_mem h

theorem mem_flatten_getD {L : List (List β)} {e : β} :
    e ∈ L.flatten ↔ ∃ i, i < L.length ∧ e ∈ L.getD i [] := by
  induction L with
  | nil => simp
  | cons b L ih =>
    simp only [List.flatten_cons, List.mem_append, ih]
    constructor
    · rintro (hb | ⟨i, hi, hmem⟩)
      · exact ⟨0, by simp, by simpa [List.getD] using hb⟩
      · exact ⟨i + 1, by simpa using hi, by simpa [List.getD] using hmem⟩
    · rintro ⟨i, hi, hmem⟩
      cases i with
      | zero => exact Or.inl (by simpa [List.getD] using hmem)
      | succ i =>
        exact Or.inr ⟨i, by simpa using hi, by simpa [List.getD] using hmem⟩

theorem flatten_set_perm (L : List (List β)) (i : Nat) (c : List β)
    (h : i < L.length) :
    (L.set i c).flatten.Perm (c ++ (L.set i []).flatten) := by
  induction L generalizing i with
  | nil => simp at h
  | cons b L ih =>
    cases i with
    | zero => simp
    | succ i =>
      simp only [List.set_cons_succ, List.flatten_cons]
      have hi : i < L.length := by simpa using h
      calc (b ++ (L.set i c).flatten).Perm (b ++ (c ++ (L.set i []).flatten)) :=
            (ih i hi).append_left b
        _ = (b ++ c) ++ (L.set i []).flatten := by simp
        _ |>.Perm ((c ++ b) ++ (L.set i []).flatten) :=
            List.perm_append_comm.append_right _
        _ = c ++ (b ++ (L.set i []).flatten) := by simp

theorem flatten_perm_getD_append (L : List (List β)) (i : Nat)
    (h : i < L.length) :
    L.flatten.Perm (L.getD i [] ++ (L.set i []).flatten) := by
  induction L generalizing i with
  | nil => simp at h
  | cons b L ih =>
    cases i with
    | zero => simp [List.getD]
    | succ i =>
      simp only [List.set_cons_succ, List.flatten_cons]
      have hi : i < L.length := by simpa using h
      have hD : (b :: L).getD (i + 1) [] = L.getD i [] := by simp [List.getD]
      rw [hD]
      calc (b ++ L.flatten).Perm (b ++ (L.getD i [] ++ (L.set i []).flatten)) :=
            (ih i hi).append_left b
        _ = (b ++ L.getD i []) ++ (L.set i []).flatten := by simp
        _ |>.Perm ((L.getD i [] ++ b) ++ (L.set i []).flatten) :=
            List.perm_append_comm.append_right _
        _ = L.getD i [] ++ (b ++ (L.set i []).flatten) := by simp

theorem getD_replicate_nil (n i : Nat) :
    (List.replicate n ([] : List β)).getD i [] = [] := by
  rcases Nat.lt_or_ge i n with h | h
  · rw [List.getD_eq_getElem?_getD, List.getElem?_eq_getElem (by simpa using h)]
    simp
  · rw [List.getD_eq_default _ _ (by simpa using h)]

end ListHelpers

section Invariant

variable {t : HashTable α}

theorem WF.cap_mem (h : WF t) : t.cap ∈ t.sizes :=
  getD_mem_of_lt t.sizes t.index 0 h.index_lt

theorem WF.cap_pos (h : WF t) : 0 < t.cap :=
  Nat.lt_trans Nat.zero_lt_one (h.sizes_gt _ h.cap_mem)

/-- Anything in a bucket is among the stored entries. -/
theorem mem_entries_of_mem_bucket (h : WF t) {i : Nat} {e : HTEntry α}
    (he : e ∈ t.ht.getD i []) : e ∈ t.entries := by
  rcases Nat.lt_or_ge i t.ht.length with hi | hi
  · exact mem_flatten_getD.mpr ⟨i, hi, he⟩
  · rw [List.getD_eq_default _ _ hi] at he
    cases he

/-- The compare relation is symmetric in its negation as well. -/
theorem GoodFns.ne_symm {f : HTFunctions α} (hg : GoodFns f) {a b : α}
    (h : f.compare a b ≠ 0) : f.compare b a ≠ 0 :=
  fun hba => h (hg.cmp_symm b a hba)

/-- With well-behaved functions at most one stored entry matches `x`. -/
theorem equiv_unique (hwf : WF t) (hg : GoodFns t.functions)
    {e₁ e₂ : HTEntry α} {x : α} (h₁ : e₁ ∈ t.entries) (h₂ : e₂ ∈ t.entries)
    (m₁ : t.functions.compare e₁.data x = 0)
    (m₂ : t.functions.compare e₂.data x = 0) : e₁ = e₂ := by
  by_contra hne
  have hsym : Symmetric (fun a b : HTEntry α =>
      t.functions.compare a.data b.data ≠ 0) := fun a b h => hg.ne_symm h
  have := hwf.uniq.forall hsym h₁ h₂ hne
  exact this (hg.cmp_trans _ _ _ m₁ (hg.cmp_symm _ _ m₂))

/-- Any stored entry matching `x` lives in the bucket `htLookUp` scans. -/
theorem equiv_mem_bucket (hwf : WF t) (hg : GoodFns t.functions)
    {e : HTEntry α} {x : α} (he : e ∈ t.entries)
    (hm : t.functions.compare e.data x = 0) :
    e ∈ t.ht.getD (t.functions.hash x % t.cap) [] := by
  rcases mem_flatten_getD.mp he with ⟨i, hi, hmem⟩
  have hplace := hwf.placed i e hmem
  have : t.functions.hash e.data = t.functions.hash x := hg.hash_eq _ _ hm
  rw [this] at hplace
  rwa [hplace]

theorem findEntry_eq_none {cmp : α → α → Int} {x : α} {chain : List (HTEntry α)} :
    findEntry cmp x chain = none ↔ ∀ e ∈ chain, cmp e.data x ≠ 0 := by
  induction chain with
  | nil => simp [findEntry]
  | cons e rest ih =>
    by_cases h : cmp e.data x = 0 <;> simp [findEntry, h, ih]

theorem findEntry_eq_some {cmp : α → α → Int} {x : α} {chain : List (HTEntry α)}
    {e : HTEntry α} (h : findEntry cmp x chain = some e) :
    e ∈ chain ∧ cmp e.data x = 0 := by
  induction chain with
  | nil => cases h
  | cons a rest ih =>
    by_cases ha : cmp a.data x = 0
    · rw [findEntry, if_pos ha] at h
      cases h
      exact ⟨List.mem_cons_self _ _, ha⟩
    · rw [findEntry, if_neg ha] at h
      rcases ih h with ⟨hmem, hm⟩
      exact ⟨List.mem_cons_of_mem a hmem, hm⟩

/-- First-match decomposition of the chain scan. -/
theorem findEntry_first_match (cmp : α → α → Int) (x : α)
    (chain : List (HTEntry α)) :
    ((∀ e ∈ chain, cmp e.data x ≠ 0) ∧ findEntry cmp x chain = none) ∨
    (∃ l₁ e l₂, chain = l₁ ++ e :: l₂ ∧ (∀ e₁ ∈ l₁, cmp e₁.data x ≠ 0) ∧
      cmp e.data x = 0 ∧ findEntry cmp x chain = some e) := by
  induction chain with
  | nil => exact Or.inl ⟨by simp, rfl⟩
  | cons a rest ih =>
    by_cases ha : cmp a.data x = 0
    · exact Or.inr ⟨[], a, rest, by simp, by simp, ha, by simp [findEntry, ha]⟩
    · rcases ih with ⟨hall, hnone⟩ | ⟨l₁, e, l₂, hdec, hl₁, hm, hfind⟩
      · refine Or.inl ⟨?_, by simp [findEntry, ha, hnone]⟩
        intro e he
        rcases List.mem_cons.mp he with rfl | hmem
        · exact ha
        · exact hall e hmem
      · refine Or.inr ⟨a :: l₁, e, l₂, by simp [hdec], ?_, hm,
          by simp [findEntry, ha, hfind]⟩
        intro e₁ he₁
        rcases List.mem_cons.mp he₁ with rfl | hmem
        · exact ha
        · exact hl₁ e₁ hmem

/-- A stored entry matching `x` is exactly what `htLookUp` reports. -/
theorem htLookUp_found (hwf : WF t) (hg : GoodFns t.functions)
    {e : HTEntry α} {x : α} (he : e ∈ t.entries)
    (hm : t.functions.compare e.data x = 0) :
    htLookUp t x = ⟨some e.data, e.frequency⟩ := by
  have hbucket := equiv_mem_bucket hwf hg he hm
  unfold htLookUp
  rcases findEntry_first_match t.functions.compare x
      (t.ht.getD (t.functions.hash x % t.sizes.getD t.index 0) []) with
    ⟨hall, hnone⟩ | ⟨l₁, e₁, l₂, hdec, hl₁, hm₁, hfind⟩
  · exact absurd hm (hall e hbucket)
  · rw [hfind]
    have hmem₁ : e₁ ∈ t.ht.getD (t.functions.hash x % t.sizes.getD t.index 0) [] := by
      rw [hdec]
      exact List.mem_append_right _ (List.mem_cons_self _ _)
    have he₁ : e₁ ∈ t.entries :=
      mem_entries_of_mem_bucket hwf hmem₁
    have : e₁ = e := equiv_unique hwf hg he₁ he hm₁ hm
    rw [this]

/-- If no stored entry matches `x`, `htLookUp` returns the sentinel. -/
theorem htLookUp_not_found (hwf : WF t) (hg : GoodFns t.functions) {x : α}
    (h : ∀ e ∈ t.entries, t.functions.compare e.data x ≠ 0) :
    htLookUp t x = ⟨none, 0⟩ := by
  unfold htLookUp
  have : findEntry t.functions.compare x
      (t.ht.getD (t.functions.hash x % t.sizes.getD t.index 0) []) = none := by
    rw [findEntry_eq_none]
    intro e he
    exact h e (mem_entries_of_mem_bucket hwf he)
  rw [this]

end Invariant

section Rehash

variable {t : HashTable α} {f : HTFunctions α}

theorem bucketCons_length (nht : List (List (HTEntry α))) (i : Nat)
    (e : HTEntry α) : (bucketCons nht i e).length = nht.length :=
  List.length_set nht i _

theorem bucketCons_flatten_perm {nht : List (List (HTEntry α))} {i : Nat}
    (e : HTEntry α) (h : i < nht.length) :
    (bucketCons nht i e).flatten.Perm (e :: nht.flatten) := by
  unfold bucketCons
  refine (flatten_set_perm nht i _ h).trans ?_
  have : (e :: nht.getD i []) ++ (nht.set i []).flatten =
      e :: (nht.getD i [] ++ (nht.set i []).flatten) := by simp
  rw [this]
  exact ((flatten_perm_getD_append nht i h).symm).cons e

theorem bucketCons_placed {nht : List (List (HTEntry α))} {cap : Nat}
    {e : HTEntry α}
    (hall : ∀ j, ∀ e₁ ∈ nht.getD j [], f.hash e₁.data % cap = j)
    (hi : f.hash e.data % cap < nht.length) :
    ∀ j, ∀ e₁ ∈ (bucketCons nht (f.hash e.data % cap) e).getD j [],
      f.hash e₁.data % cap = j := by
  intro j e₁ he₁
  by_cases hj : f.hash e.data % cap = j
  · subst hj
    rw [bucketCons, getD_set_self _ _ _ _ hi] at he₁
    rcases List.mem_cons.mp he₁ with rfl | hmem
    · rfl
    · exact hall _ e₁ hmem
  · rw [bucketCons, getD_set_of_ne _ _ _ hj] at he₁
    exact hall j e₁ he₁

theorem hrehash_length (cap : Nat) :
    ∀ (chain : List (HTEntry α)) (nht : List (List (HTEntry α))),
      (hrehash f cap chain nht).length = nht.length := by
  intro chain
  induction chain with
  | nil => intro nht; rfl
  | cons e rest ih =>
    intro nht
    rw [hrehash, ih, bucketCons_length]

theorem hrehash_flatten_perm {cap : Nat} (hpos : 0 < cap) :
    ∀ (chain : List (HTEntry α)) (nht : List (List (HTEntry α))),
      nht.length = cap →
      (hrehash f cap chain nht).flatten.Perm (chain ++ nht.flatten) := by
  intro chain
  induction chain with
  | nil => intro nht _; simp [hrehash]
  | cons e rest ih =>
    intro nht hlen
    rw [hrehash]
    have hi : f.hash e.data % cap < nht.length := by
      rw [hlen]; exact Nat.mod_lt _ hpos
    have h₁ := ih (bucketCons nht (f.hash e.data % cap) e)
      (by rw [bucketCons_length, hlen])
    refine h₁.trans ?_
    refine ((bucketCons_flatten_perm e hi).append_left rest).trans ?_
    exact List.perm_middle

theorem hrehash_placed {cap : Nat} (hpos : 0 < cap) :
    ∀ (chain : List (HTEntry α)) (nht : List (List (HTEntry α))),
      nht.length = cap →
      (∀ j, ∀ e₁ ∈ nht.getD j [], f.hash e₁.data % cap = j) →
      ∀ j, ∀ e₁ ∈ (hrehash f cap chain nht).getD j [],
        f.hash e₁.data % cap = j := by
  intro chain
  induction chain with
  | nil => intro nht _ hall; exact hall
  | cons e rest ih =>
    intro nht hlen hall
    rw [hrehash]
    exact ih _ (by rw [bucketCons_length, hlen])
      (bucketCons_placed hall (by rw [hlen]; exact Nat.mod_lt _ hpos))

theorem foldl_hrehash_length (cap : Nat) :
    ∀ (chains : List (List (HTEntry α))) (nht : List (List (HTEntry α))),
      (chains.foldl (fun acc chain => hrehash f cap chain acc) nht).length =
        nht.length := by
  intro chains
  induction chains with
  | nil => intro nht; rfl
  | cons c chains ih =>
    intro nht
    rw [List.foldl_cons, ih, hrehash_length]

theorem foldl_hrehash_flatten_perm (f : HTFunctions α) {cap : Nat}
    (hpos : 0 < cap) :
    ∀ (chains : List (List (HTEntry α))) (nht : List (List (HTEntry α))),
      nht.length = cap →
      (chains.foldl (fun acc chain => hrehash f cap chain acc) nht).flatten.Perm
        (chains.flatten ++ nht.flatten) := by
  intro chains
  induction chains with
  | nil => intro nht _; simp
  | cons c chains ih =>
    intro nht hlen
    rw [List.foldl_cons]
    have h₁ := ih (hrehash f cap c nht) (by rw [hrehash_length, hlen])
    refine h₁.trans ?_
    refine ((hrehash_flatten_perm hpos c nht hlen).append_left _).trans ?_
    have h₂ : chains.flatten ++ (c ++ nht.flatten) =
        (chains.flatten ++ c) ++ nht.flatten := by simp
    rw [h₂, List.flatten_cons]
    exact List.perm_append_comm.append_right _

theorem foldl_hrehash_placed {cap : Nat} (hpos : 0 < cap) :
    ∀ (chains : List (List (HTEntry α))) (nht : List (List (HTEntry α))),
      nht.length = cap →
      (∀ j, ∀ e₁ ∈ nht.getD j [], f.hash e₁.data % cap = j) →
      ∀ j, ∀ e₁ ∈
        (chains.foldl (fun acc chain => hrehash f cap chain acc) nht).getD j [],
        f.hash e₁.data % cap = j := by
  intro chains
  induction chains with
  | nil => intro nht _ hall; exact hall
  | cons c chains ih =>
    intro nht hlen hall
    rw [List.foldl_cons]
    exact ih _ (by rw [hrehash_length, hlen])
      (hrehash_placed hpos c nht hlen hall)

theorem rehash_index (t : HashTable α) : (rehash t).index = t.index + 1 := rfl

theorem rehash_numItem (t : HashTable α) : (rehash t).numItem = t.numItem := rfl

theorem rehash_total (t : HashTable α) : (rehash t).total = t.total := rfl

theorem rehash_sizes (t : HashTable α) : (rehash t).sizes = t.sizes := rfl

theorem rehash_functions (t : HashTable α) :
    (rehash t).functions = t.functions := rfl

theorem rehash_lf (t : HashTable α) : (rehash t).lf = t.lf := rfl

theorem rehash_cap (t : HashTable α) :
    (rehash t).cap = t.sizes.getD (t.index + 1) 0 := rfl

theorem rehash_ncap_pos (hwf : WF t) (hidx : t.index + 1 < t.sizes.length) :
    0 < t.sizes.getD (t.index + 1) 0 :=
  Nat.lt_trans Nat.zero_lt_one
    (hwf.sizes_gt _ (getD_mem_of_lt t.sizes (t.index + 1) 0 hidx))

theorem rehash_ht_eq (t : HashTable α) :
    (rehash t).ht = t.ht.foldl
      (fun acc chain =>
        hrehash t.functions (t.sizes.getD (t.index + 1) 0) chain acc)
      (List.replicate (t.sizes.getD (t.index + 1) 0) []) := rfl

theorem rehash_ht_length (hwf : WF t) (hidx : t.index + 1 < t.sizes.length) :
    (rehash t).ht.length = t.sizes.getD (t.index + 1) 0 := by
  rw [rehash_ht_eq, foldl_hrehash_length]
  simp

theorem rehash_entries_perm (hwf : WF t)
    (hidx : t.index + 1 < t.sizes.length) :
    (rehash t).entries.Perm t.entries := by
  have hpos := rehash_ncap_pos hwf hidx
  have h := foldl_hrehash_flatten_perm t.functions hpos t.ht
    (List.replicate (t.sizes.getD (t.index + 1) 0) [])
    (by simp)
  rw [List.flatten_replicate_nil, List.append_nil] at h
  exact h

theorem rehash_placed (hwf : WF t) (hidx : t.index + 1 < t.sizes.length) :
    ∀ j, ∀ e ∈ (rehash t).ht.getD j [],
      t.functions.hash e.data % (t.sizes.getD (t.index + 1) 0) = j := by
  have hpos := rehash_ncap_pos hwf hidx
  exact foldl_hrehash_placed hpos t.ht _ (by simp)
    (fun j e₁ he₁ => by rw [getD_replicate_nil] at he₁; cases he₁)

theorem rehash_WF (hwf : WF t) (hg : GoodFns t.functions)
    (hidx : t.index + 1 < t.sizes.length) : WF (rehash t) := by
  have hperm := rehash_entries_perm hwf hidx
  refine ⟨hwf.sizes_gt, hwf.sizes_chain, hidx, ?_, ?_, ?_, ?_, ?_⟩
  · exact rehash_ht_length hwf hidx
  · rw [rehash_numItem, hwf.numItem_eq, hperm.length_eq]
  · rw [rehash_total, hwf.total_eq, (hperm.map HTEntry.frequency).sum_eq]
  · exact rehash_placed hwf hidx
  · have hsym : Symmetric (fun a b : HTEntry α =>
        t.functions.compare a.data b.data ≠ 0) := fun a b h => hg.ne_symm h
    exact (hperm.pairwise_iff (fun h => hsym h)).mpr hwf.uniq

end Rehash

section CheckRehash

variable {t : HashTable α}

theorem checkRehash_pos (h : growthGuard t) : checkRehash t = rehash t := by
  unfold growthGuard at h
  rw [checkRehash, if_pos h]

theorem checkRehash_neg (h : ¬growthGuard t) : checkRehash t = t := by
  unfold growthGuard at h
  rw [checkRehash, if_neg h]

theorem growthGuard_succ_lt (h : t.index < t.sizes.length - 1) :
    t.index + 1 < t.sizes.length := by omega

theorem checkRehash_WF (hwf : WF t) (hg : GoodFns t.functions) :
    WF (checkRehash t) := by
  by_cases h : growthGuard t
  · rw [checkRehash_pos h]
    exact rehash_WF hwf hg (growthGuard_succ_lt h.2.1)
  · rw [checkRehash_neg h]; exact hwf

theorem checkRehash_entries_perm (hwf : WF t) :
    (checkRehash t).entries.Perm t.entries := by
  by_cases h : growthGuard t
  · rw [checkRehash_pos h]
    exact rehash_entries_perm hwf (growthGuard_succ_lt h.2.1)
  · rw [checkRehash_neg h]

theorem checkRehash_numItem (t : HashTable α) :
    (checkRehash t).numItem = t.numItem := by
  by_cases h : growthGuard t
  · rw [checkRehash_pos h]; rfl
  · rw [checkRehash_neg h]

theorem checkRehash_total (t : HashTable α) :
    (checkRehash t).total = t.total := by
  by_cases h : growthGuard t
  · rw [checkRehash_pos h]; rfl
  · rw [checkRehash_neg h]

theorem checkRehash_sizes (t : HashTable α) :
    (checkRehash t).sizes = t.sizes := by
  by_cases h : growthGuard t
  · rw [checkRehash_pos h]; rfl
  · rw [checkRehash_neg h]

theorem checkRehash_functions (t : HashTable α) :
    (checkRehash t).functions = t.functions := by
  by_cases h : growthGuard t
  · rw [checkRehash_pos h]; rfl
  · rw [checkRehash_neg h]

theorem checkRehash_lf (t : HashTable α) : (checkRehash t).lf = t.lf := by
  by_cases h : growthGuard t
  · rw [checkRehash_pos h]; rfl
  · rw [checkRehash_neg h]

theorem checkRehash_index (t : HashTable α) :
    (checkRehash t).index = t.index ∨
    ((checkRehash t).index = t.index + 1 ∧ t.index < t.sizes.length - 1) := by
  by_cases h : growthGuard t
  · rw [checkRehash_pos h]; exact Or.inr ⟨rfl, h.2.1⟩
  · rw [checkRehash_neg h]; exact Or.inl rfl

theorem checkRehash_index_iff (t : HashTable α) :
    (checkRehash t).index = t.index + 1 ↔ growthGuard t := by
  by_cases h : growthGuard t
  · rw [checkRehash_pos h]; simp [h, rehash_index]
  · rw [checkRehash_neg h]; simp [h]

end CheckRehash

section AddTail

variable {t : HashTable α} {cmp : α → α → Int} {x : α}

theorem bumpChain_eq_none_iff {chain : List (HTEntry α)} :
    bumpChain cmp x chain = none ↔ ∀ e ∈ chain, cmp e.data x ≠ 0 := by
  induction chain with
  | nil => simp [bumpChain]
  | cons e rest ih =>
    by_cases h : cmp e.data x = 0
    · rw [bumpChain, if_pos h]
      constructor
      · intro hc; cases hc
      · intro hall; exact absurd h (hall e (List.mem_cons_self _ _))
    · rw [bumpChain, if_neg h]
      rcases hrec : bumpChain cmp x rest with _ | ⟨rest', fr⟩
      · constructor
        · intro _ e₁ he₁
          rcases List.mem_cons.mp he₁ with rfl | hmem
          · exact h
          · exact (ih.mp hrec) e₁ hmem
        · intro _; rfl
      · constructor
        · intro hc; cases hc
        · intro hall
          have hnone : bumpChain cmp x rest = none :=
            ih.mpr (fun e₁ he₁ => hall e₁ (List.mem_cons_of_mem e he₁))
          rw [hnone] at hrec; cases hrec

/-- Decomposition of a successful `bumpChain`: the chain splits at the first
match, whose frequency is incremented in place. -/
theorem bumpChain_some {chain chain' : List (HTEntry α)} {fr : Nat}
    (h : bumpChain cmp x chain = some (chain', fr)) :
    ∃ l₁ e l₂, chain = l₁ ++ e :: l₂ ∧ (∀ e₁ ∈ l₁, cmp e₁.data x ≠ 0) ∧
      cmp e.data x = 0 ∧
      chain' = l₁ ++ (⟨e.data, e.frequency + 1⟩ : HTEntry α) :: l₂ ∧
      fr = e.frequency + 1 := by
  induction chain generalizing chain' fr with
  | nil => cases h
  | cons e rest ih =>
    by_cases he : cmp e.data x = 0
    · rw [bumpChain, if_pos he] at h
      cases h
      exact ⟨[], e, rest, by simp, by simp, he, by simp, rfl⟩
    · rw [bumpChain, if_neg he] at h
      rcases hrec : bumpChain cmp x rest with _ | ⟨rest', fr'⟩
      · rw [hrec] at h; cases h
      · rw [hrec] at h
        cases h
        rcases ih hrec with ⟨l₁, e₁, l₂, hdec, hl₁, hm, hchain, hfr⟩
        refine ⟨e :: l₁, e₁, l₂, by simp [hdec], ?_, hm, by simp [hchain], hfr⟩
        intro e₂ he₂
        rcases List.mem_cons.mp he₂ with rfl | hmem
        · exact he
        · exact hl₁ e₂ hmem

theorem addTail_index (t : HashTable α) (hi : Nat) (x : α) :
    (addTail t hi x).1.index = t.index := by
  unfold addTail
  rcases h : bumpChain t.functions.compare x (t.ht.getD hi []) with _ | ⟨c, fr⟩ <;>
    rfl

theorem addTail_sizes (t : HashTable α) (hi : Nat) (x : α) :
    (addTail t hi x).1.sizes = t.sizes := by
  unfold addTail
  rcases h : bumpChain t.functions.compare x (t.ht.getD hi []) with _ | ⟨c, fr⟩ <;>
    rfl

theorem addTail_functions (t : HashTable α) (hi : Nat) (x : α) :
    (addTail t hi x).1.functions = t.functions := by
  unfold addTail
  rcases h : bumpChain t.functions.compare x (t.ht.getD hi []) with _ | ⟨c, fr⟩ <;>
    rfl

theorem addTail_lf (t : HashTable α) (hi : Nat) (x : α) :
    (addTail t hi x).1.lf = t.lf := by
  unfold addTail
  rcases h : bumpChain t.functions.compare x (t.ht.getD hi []) with _ | ⟨c, fr⟩ <;>
    rfl

end AddTail

section AddSpec

variable {t : HashTable α} {x : α}

/-- `addTail` on a fresh equivalence class: returns frequency 1, prepends a
frequency-1 entry for `x`, and bumps both counters. -/
theorem addTail_new (hwf : WF t) (hg : GoodFns t.functions) (x : α)
    (habs : ∀ e ∈ t.entries, t.functions.compare e.data x ≠ 0) :
    (addTail t (t.functions.hash x % t.cap) x).2 = 1 ∧
    WF (addTail t (t.functions.hash x % t.cap) x).1 ∧
    (addTail t (t.functions.hash x % t.cap) x).1.entries.Perm
      ((⟨x, 1⟩ : HTEntry α) :: t.entries) ∧
    (addTail t (t.functions.hash x % t.cap) x).1.numItem = t.numItem + 1 ∧
    (addTail t (t.functions.hash x % t.cap) x).1.total = t.total + 1 ∧
    (addTail t (t.functions.hash x % t.cap) x).1.sizes = t.sizes ∧
    (addTail t (t.functions.hash x % t.cap) x).1.functions = t.functions ∧
    (addTail t (t.functions.hash x % t.cap) x).1.lf = t.lf ∧
    (addTail t (t.functions.hash x % t.cap) x).1.index = t.index := by
  have hhi_lt : t.functions.hash x % t.cap < t.ht.length := by
    rw [hwf.ht_len]; exact Nat.mod_lt _ hwf.cap_pos
  have hchain_none :
      bumpChain t.functions.compare x
        (t.ht.getD (t.functions.hash x % t.cap) []) = none :=
    bumpChain_eq_none_iff.mpr
      (fun e he => habs e (mem_entries_of_mem_bucket hwf he))
  unfold addTail
  rw [hchain_none]
  have hperm : (t.ht.set (t.functions.hash x % t.cap)
        (addEntry x :: t.ht.getD (t.functions.hash x % t.cap) [])).flatten.Perm
      ((⟨x, 1⟩ : HTEntry α) :: t.entries) := by
    refine (flatten_set_perm t.ht _ _ hhi_lt).trans ?_
    have hsh : (addEntry x :: t.ht.getD (t.functions.hash x % t.cap) []) ++
        (t.ht.set (t.functions.hash x % t.cap) []).flatten =
        (⟨x, 1⟩ : HTEntry α) :: (t.ht.getD (t.functions.hash x % t.cap) [] ++
          (t.ht.set (t.functions.hash x % t.cap) []).flatten) := by
      simp [addEntry]
    rw [hsh]
    exact ((flatten_perm_getD_append t.ht _ hhi_lt).symm).cons _
  refine ⟨rfl, ?_, hperm, rfl, rfl, rfl, rfl, rfl, rfl⟩
  refine ⟨hwf.sizes_gt, hwf.sizes_chain, hwf.index_lt, ?_, ?_, ?_, ?_, ?_⟩
  · simpa [cap] using hwf.ht_len
  · have h1 := hperm.length_eq
    simp only [List.length_cons] at h1
    calc t.numItem + 1 = t.entries.length + 1 := by rw [hwf.numItem_eq]
      _ = _ := h1.symm
  · have h2 := (hperm.map HTEntry.frequency).sum_eq
    simp only [List.map_cons, List.sum_cons] at h2
    calc t.total + 1
        = (t.entries.map HTEntry.frequency).sum + 1 := by rw [hwf.total_eq]
      _ = (⟨x, 1⟩ : HTEntry α).frequency +
            (t.entries.map HTEntry.frequency).sum := by
              show _ = 1 + _
              omega
      _ = _ := h2.symm
  · intro j e he
    by_cases hj : t.functions.hash x % t.cap = j
    · subst hj
      simp only [cap] at he ⊢
      rw [getD_set_self _ _ _ _ (by simpa [cap] using hhi_lt)] at he
      rcases List.mem_cons.mp he with rfl | hmem
      · rfl
      · exact hwf.placed _ e hmem
    · simp only [cap] at he ⊢
      rw [getD_set_of_ne _ _ _ (by simpa [cap] using hj)] at he
      exact hwf.placed j e he
  · have hsym : Symmetric (fun a b : HTEntry α =>
        t.functions.compare a.data b.data ≠ 0) := fun a b h => hg.ne_symm h
    refine (hperm.pairwise_iff (fun h => hsym h)).mpr ?_
    exact List.pairwise_cons.mpr
      ⟨fun e he => hg.ne_symm (habs e he), hwf.uniq⟩

/-- `addTail` on a duplicate: returns the matched entry's incremented
frequency, bumps only `total`, and replaces the matched entry in place. -/
theorem addTail_dup (hwf : WF t) (hg : GoodFns t.functions) (x : α)
    {e₀ : HTEntry α} {l : List (HTEntry α)}
    (hperm0 : t.entries.Perm (e₀ :: l))
    (hm : t.functions.compare e₀.data x = 0) :
    (addTail t (t.functions.hash x % t.cap) x).2 = e₀.frequency + 1 ∧
    WF (addTail t (t.functions.hash x % t.cap) x).1 ∧
    (addTail t (t.functions.hash x % t.cap) x).1.entries.Perm
      ((⟨e₀.data, e₀.frequency + 1⟩ : HTEntry α) :: l) ∧
    (addTail t (t.functions.hash x % t.cap) x).1.numItem = t.numItem ∧
    (addTail t (t.functions.hash x % t.cap) x).1.total = t.total + 1 ∧
    (addTail t (t.functions.hash x % t.cap) x).1.sizes = t.sizes ∧
    (addTail t (t.functions.hash x % t.cap) x).1.functions = t.functions ∧
    (addTail t (t.functions.hash x % t.cap) x).1.lf = t.lf ∧
    (addTail t (t.functions.hash x % t.cap) x).1.index = t.index := by
  have hhi_lt : t.functions.hash x % t.cap < t.ht.length := by
    rw [hwf.ht_len]; exact Nat.mod_lt _ hwf.cap_pos
  have he₀ : e₀ ∈ t.entries := hperm0.mem_iff.mpr (List.mem_cons_self _ _)
  have he₀b : e₀ ∈ t.ht.getD (t.functions.hash x % t.cap) [] :=
    equiv_mem_bucket hwf hg he₀ hm
  rcases h : bumpChain t.functions.compare x
      (t.ht.getD (t.functions.hash x % t.cap) []) with _ | ⟨chain', fr⟩
  · exact absurd hm (bumpChain_eq_none_iff.mp h e₀ he₀b)
  rcases bumpChain_some h with ⟨l₁, e₁, l₂, hdec, hl₁, hm₁, hchain', hfr⟩
  have he₁b : e₁ ∈ t.ht.getD (t.functions.hash x % t.cap) [] := by
    rw [hdec]
    exact List.mem_append_right _ (List.mem_cons_self _ _)
  have he₁ : e₁ ∈ t.entries := mem_entries_of_mem_bucket hwf he₁b
  have he₁e₀ : e₁ = e₀ := equiv_unique hwf hg he₁ he₀ hm₁ hm
  subst he₁e₀
  unfold addTail
  rw [h]
  have hpermt : t.entries.Perm (e₁ :: (l₁ ++ (l₂ ++
      (t.ht.set (t.functions.hash x % t.cap) []).flatten))) := by
    refine (flatten_perm_getD_append t.ht _ hhi_lt).trans ?_
    rw [hdec]
    have : (l₁ ++ e₁ :: l₂) ++
        (t.ht.set (t.functions.hash x % t.cap) []).flatten =
        l₁ ++ e₁ :: (l₂ ++
          (t.ht.set (t.functions.hash x % t.cap) []).flatten) := by simp
    rw [this]
    exact List.perm_middle
  have hl : l.Perm (l₁ ++ (l₂ ++
      (t.ht.set (t.functions.hash x % t.cap) []).flatten)) :=
    (hperm0.symm.trans hpermt).cons_inv
  have hperm : (t.ht.set (t.functions.hash x % t.cap) chain').flatten.Perm
      ((⟨e₁.data, e₁.frequency + 1⟩ : HTEntry α) :: l) := by
    refine (flatten_set_perm t.ht _ _ hhi_lt).trans ?_
    rw [hchain']
    have : (l₁ ++ (⟨e₁.data, e₁.frequency + 1⟩ : HTEntry α) :: l₂) ++
        (t.ht.set (t.functions.hash x % t.cap) []).flatten =
        l₁ ++ (⟨e₁.data, e₁.frequency + 1⟩ : HTEntry α) :: (l₂ ++
          (t.ht.set (t.functions.hash x % t.cap) []).flatten) := by simp
    rw [this]
    exact List.perm_middle.trans (hl.symm.cons _)
  have hlen_eq : t.entries.length =
      ((⟨e₁.data, e₁.frequency + 1⟩ : HTEntry α) :: l).length := by
    rw [hperm0.length_eq]; rfl
  refine ⟨by rw [hfr], ?_, hperm, rfl, rfl, rfl, rfl, rfl, rfl⟩
  refine ⟨hwf.sizes_gt, hwf.sizes_chain, hwf.index_lt, ?_, ?_, ?_, ?_, ?_⟩
  · simpa [cap] using hwf.ht_len
  · calc t.numItem = t.entries.length := hwf.numItem_eq
      _ = ((⟨e₁.data, e₁.frequency + 1⟩ : HTEntry α) :: l).length := hlen_eq
      _ = _ := hperm.length_eq.symm
  · have h2 := (hperm.map HTEntry.frequency).sum_eq
    have h0 := (hperm0.map HTEntry.frequency).sum_eq
    simp only [List.map_cons, List.sum_cons] at h2 h0
    calc t.total + 1
        = (t.entries.map HTEntry.frequency).sum + 1 := by rw [hwf.total_eq]
      _ = (⟨e₁.data, e₁.frequency + 1⟩ : HTEntry α).frequency +
            (l.map HTEntry.frequency).sum := by
              rw [h0]
              show _ = e₁.frequency + 1 + _
              omega
      _ = _ := h2.symm
  · intro j e he
    by_cases hj : t.functions.hash x % t.cap = j
    · subst hj
      simp only [cap] at he ⊢
      rw [getD_set_self _ _ _ _ (by simpa [cap] using hhi_lt)] at he
      rw [hchain'] at he
      rcases List.mem_append.mp he with hmem | hmem
      · refine hwf.placed _ e ?_
        show e ∈ t.ht.getD (t.functions.hash x % t.cap) []
        rw [hdec]
        exact List.mem_append_left _ hmem
      · rcases List.mem_cons.mp hmem with rfl | hmem
        · exact hwf.placed _ e₁ he₀b
        · refine hwf.placed _ e ?_
          show e ∈ t.ht.getD (t.functions.hash x % t.cap) []
          rw [hdec]
          exact List.mem_append_right _ (List.mem_cons_of_mem _ hmem)
    · simp only [cap] at he ⊢
      rw [getD_set_of_ne _ _ _ (by simpa [cap] using hj)] at he
      exact hwf.placed j e he
  · have hsym : Symmetric (fun a b : HTEntry α =>
        t.functions.compare a.data b.data ≠ 0) := fun a b h => hg.ne_symm h
    refine (hperm.pairwise_iff (fun h => hsym h)).mpr ?_
    have hpair : (e₁ :: l).Pairwise (fun a b =>
        t.functions.compare a.data b.data ≠ 0) :=
      (hperm0.pairwise_iff (fun h => hsym h)).mp hwf.uniq
    rcases List.pairwise_cons.mp hpair with ⟨hhead, htail⟩
    exact List.pairwise_cons.mpr ⟨hhead, htail⟩

/-- The first component of `htAdd` is `addTail` applied after
`checkRehash`; the bucket is the hash of `x` modulo the possibly-grown
capacity. -/
theorem htAdd_eq (t : HashTable α) (x : α) :
    htAdd t x = addTail (checkRehash t)
      ((checkRehash t).functions.hash x % (checkRehash t).cap) x := rfl

/-- `htAdd` of a value whose equivalence class is absent: returns 1, adds a
frequency-1 entry, and bumps both counters. -/
theorem htAdd_new (hwf : WF t) (hg : GoodFns t.functions)
    (habs : ∀ e ∈ t.entries, t.functions.compare e.data x ≠ 0) :
    (htAdd t x).2 = 1 ∧ WF (htAdd t x).1 ∧
    (htAdd t x).1.entries.Perm ((⟨x, 1⟩ : HTEntry α) :: t.entries) ∧
    (htAdd t x).1.numItem = t.numItem + 1 ∧
    (htAdd t x).1.total = t.total + 1 ∧
    (htAdd t x).1.sizes = t.sizes ∧
    (htAdd t x).1.functions = t.functions ∧
    (htAdd t x).1.lf = t.lf := by
  have hwf₁ : WF (checkRehash t) := checkRehash_WF hwf hg
  have hf : (checkRehash t).functions = t.functions := checkRehash_functions t
  have hg₁ : GoodFns (checkRehash t).functions := by rw [hf]; exact hg
  have hperm₁ : (checkRehash t).entries.Perm t.entries :=
    checkRehash_entries_perm hwf
  have habs₁ : ∀ e ∈ (checkRehash t).entries,
      (checkRehash t).functions.compare e.data x ≠ 0 := by
    intro e he
    rw [hf]
    exact habs e (hperm₁.mem_iff.mp he)
  have h := addTail_new hwf₁ hg₁ x habs₁
  rw [htAdd_eq]
  rcases h with ⟨h1, h2, h3, h4, h5, h6, h7, h8, h9⟩
  refine ⟨h1, h2, ?_, ?_, ?_, ?_, ?_, ?_⟩
  · exact h3.trans (hperm₁.cons _)
  · rw [h4, checkRehash_numItem]
  · rw [h5, checkRehash_total]
  · rw [h6, checkRehash_sizes]
  · rw [h7, hf]
  · rw [h8, checkRehash_lf]

/-- `htAdd` of a duplicate: returns the matched entry's new frequency,
bumps only `total`, and increments that entry's frequency in place. -/
theorem htAdd_dup (hwf : WF t) (hg : GoodFns t.functions)
    {e₀ : HTEntry α} {l : List (HTEntry α)}
    (hperm0 : t.entries.Perm (e₀ :: l))
    (hm : t.functions.compare e₀.data x = 0) :
    (htAdd t x).2 = e₀.frequency + 1 ∧ WF (htAdd t x).1 ∧
    (htAdd t x).1.entries.Perm
      ((⟨e₀.data, e₀.frequency + 1⟩ : HTEntry α) :: l) ∧
    (htAdd t x).1.numItem = t.numItem ∧
    (htAdd t x).1.total = t.total + 1 ∧
    (htAdd t x).1.sizes = t.sizes ∧
    (htAdd t x).1.functions = t.functions ∧
    (htAdd t x).1.lf = t.lf := by
  have hwf₁ : WF (checkRehash t) := checkRehash_WF hwf hg
  have hf : (checkRehash t).functions = t.functions := checkRehash_functions t
  have hg₁ : GoodFns (checkRehash t).functions := by rw [hf]; exact hg
  have hperm₁ : (checkRehash t).entries.Perm t.entries :=
    checkRehash_entries_perm hwf
  have hperm0₁ : (checkRehash t).entries.Perm (e₀ :: l) :=
    hperm₁.trans hperm0
  have hm₁ : (checkRehash t).functions.compare e₀.data x = 0 := by
    rw [hf]; exact hm
  have h := addTail_dup hwf₁ hg₁ x hperm0₁ hm₁
  rw [htAdd_eq]
  rcases h with ⟨h1, h2, h3, h4, h5, h6, h7, h8, h9⟩
  refine ⟨h1, h2, h3, ?_, ?_, ?_, ?_, ?_⟩
  · rw [h4, checkRehash_numItem]
  · rw [h5, checkRehash_total]
  · rw [h6, checkRehash_sizes]
  · rw [h7, hf]
  · rw [h8, checkRehash_lf]

end AddSpec

section Iteration

variable {t : HashTable α} {x : α}

theorem htAddList_nil (t : HashTable α) : htAddList t [] = t := rfl

theorem htAddList_cons (t : HashTable α) (z : α) (xs : List α) :
    htAddList t (z :: xs) = htAddList (htAdd t z).1 xs := rfl

theorem htAddList_append (t : HashTable α) (xs ys : List α) :
    htAddList t (xs ++ ys) = htAddList (htAddList t xs) ys :=
  List.foldl_append _ _ xs ys

theorem classState_base (hwf : WF t) (hg : GoodFns t.functions)
    (habs : ∀ e ∈ t.entries, t.functions.compare e.data x ≠ 0)
    {y : α} (hy : t.functions.compare y x = 0) :
    (htAdd t y).2 = 1 ∧ classState t (htAdd t y).1 x 1 := by
  have haby : ∀ e ∈ t.entries, t.functions.compare e.data y ≠ 0 := by
    intro e he hc
    exact habs e he (hg.cmp_trans _ _ _ hc hy)
  obtain ⟨h1, h2, h3, h4, h5, h6, h7, h8⟩ := htAdd_new hwf hg haby
  exact ⟨h1, y, t.entries, hy, habs, h3, h2, h7, h6, h8, h4, h5⟩

theorem classState_step (hg : GoodFns t.functions) {t' : HashTable α}
    {k : Nat} {y : α} (hcs : classState t t' x k)
    (hy : t.functions.compare y x = 0) :
    (htAdd t' y).2 = k + 1 ∧ classState t (htAdd t' y).1 x (k + 1) := by
  obtain ⟨d, l, hd, hl, hperm, hwf', hfn, hsz, hlf, hnum, htot⟩ := hcs
  have hg' : GoodFns t'.functions := by rw [hfn]; exact hg
  have hm : t'.functions.compare (⟨d, k⟩ : HTEntry α).data y = 0 := by
    rw [hfn]
    exact hg.cmp_trans d x y hd (hg.cmp_symm y x hy)
  obtain ⟨h1, h2, h3, h4, h5, h6, h7, h8⟩ := htAdd_dup hwf' hg' hperm hm
  refine ⟨h1, d, l, hd, hl, h3, h2, ?_, ?_, ?_, ?_, ?_⟩
  · rw [h7, hfn]
  · rw [h6, hsz]
  · rw [h8, hlf]
  · rw [h4, hnum]
  · rw [h5, htot]
    omega

theorem classState_steps (hg : GoodFns t.functions) :
    ∀ (xs : List α) {t' : HashTable α} {k : Nat}, classState t t' x k →
      (∀ z ∈ xs, t.functions.compare z x = 0) →
      classState t (htAddList t' xs) x (k + xs.length) := by
  intro xs
  induction xs with
  | nil => intro t' k hcs _; simpa [htAddList_nil] using hcs
  | cons z xs ih =>
    intro t' k hcs hall
    have hstep := classState_step hg hcs (hall z (List.mem_cons_self _ _))
    have hrec := ih hstep.2 (fun z' hz' => hall z' (List.mem_cons_of_mem _ hz'))
    rw [htAddList_cons]
    have hk : k + (z :: xs).length = (k + 1) + xs.length := by
      simp [List.length_cons]
      omega
    rw [hk]
    exact hrec

/-- After inserting `xs ++ [y]`, all in the class of `x`, into a table with
no entry of that class: the last insert reports `xs.length + 1` and the
class state holds at that count. -/
theorem classState_main (hwf : WF t) (hg : GoodFns t.functions)
    (habs : ∀ e ∈ t.entries, t.functions.compare e.data x ≠ 0)
    (xs : List α) (y : α) (hxs : ∀ z ∈ xs, t.functions.compare z x = 0)
    (hy : t.functions.compare y x = 0) :
    (htAdd (htAddList t xs) y).2 = xs.length + 1 ∧
    classState t (htAddList t (xs ++ [y])) x (xs.length + 1) := by
  cases xs with
  | nil =>
    obtain ⟨h1, h2⟩ := classState_base hwf hg habs hy
    exact ⟨h1, h2⟩
  | cons z xs =>
    have hb := classState_base hwf hg habs (hxs z (List.mem_cons_self _ _))
    have hsteps := classState_steps hg xs hb.2
      (fun z' hz' => hxs z' (List.mem_cons_of_mem _ hz'))
    have hlist : htAddList t (z :: xs) = htAddList (htAdd t z).1 xs :=
      htAddList_cons t z xs
    have hstate : classState t (htAddList t (z :: xs)) x ((z :: xs).length) := by
      rw [hlist]
      have hk : (z :: xs).length = 1 + xs.length := by simp [Nat.add_comm]
      rw [hk]
      exact hsteps
    have hstep := classState_step hg hstate hy
    constructor
    · exact hstep.1
    · rw [htAddList_append]
      have : htAddList (htAddList t (z :: xs)) [y] =
          (htAdd (htAddList t (z :: xs)) y).1 := rfl
      rw [this]
      exact hstep.2

end Iteration

section CreateHelpers

variable {t : HashTable α}

/-- The loop predicate of `setSizeArray`, read back as the spec states it:
every size exceeds 1, the list is strictly increasing, and the first
element exceeds the incoming `prev`. -/
theorem setSizeArrayOk_iff :
    ∀ (p : Nat) (l : List Nat), setSizeArrayOk p l = true ↔
      ((∀ s ∈ l, 1 < s) ∧ l.Chain' (· < ·) ∧ ∀ h ∈ l.head?, p < h) := by
  intro p l
  induction l generalizing p with
  | nil => simp [setSizeArrayOk]
  | cons s rest ih =>
    rw [setSizeArrayOk]
    simp only [Bool.and_eq_true, decide_eq_true_eq, ih]
    constructor
    · rintro ⟨⟨h1, hp⟩, hall, hchain, hhead⟩
      refine ⟨?_, List.chain'_cons'.mpr ⟨hhead, hchain⟩, ?_⟩
      · intro s₁ hs₁
        rcases List.mem_cons.mp hs₁ with rfl | hmem
        · exact h1
        · exact hall s₁ hmem
      · simp [hp]
    · rintro ⟨hall, hchain, hhead⟩
      rcases List.chain'_cons'.mp hchain with ⟨hh, hc⟩
      refine ⟨⟨hall s (List.mem_cons_self _ _), by simpa using hhead⟩,
        fun s₁ hs₁ => hall s₁ (List.mem_cons_of_mem _ hs₁), hc, hh⟩

theorem htCreate_isSome_iff (f : HTFunctions α) (sizes : List Nat) (lf : ℚ) :
    (htCreate f sizes lf).isSome ↔
      (sizes ≠ [] ∧ (∀ s ∈ sizes, 1 < s) ∧ sizes.Chain' (· < ·) ∧
        0 < lf ∧ lf ≤ 1) := by
  unfold htCreate
  by_cases h : 0 < sizes.length ∧ 0 < lf ∧ lf ≤ 1 ∧ setSizeArrayOk 0 sizes
  · rw [if_pos h]
    simp only [Option.isSome_some, true_iff]
    rcases h with ⟨hlen, hlf0, hlf1, hok⟩
    rcases (setSizeArrayOk_iff 0 sizes).mp hok with ⟨hgt, hchain, _⟩
    exact ⟨List.ne_nil_of_length_pos hlen, hgt, hchain, hlf0, hlf1⟩
  · rw [if_neg h]
    simp only [Option.isSome_none, Bool.false_eq_true, false_iff]
    intro hcontra
    rcases hcontra with ⟨hne, hgt, hchain, hlf0, hlf1⟩
    refine h ⟨List.length_pos.mpr hne, hlf0, hlf1, ?_⟩
    refine (setSizeArrayOk_iff 0 sizes).mpr ⟨hgt, hchain, ?_⟩
    intro s hs
    have : s ∈ sizes := by
      cases sizes with
      | nil => cases hs
      | cons a rest =>
        cases hs
        exact List.mem_cons_self _ _
    exact Nat.lt_trans Nat.zero_lt_one (hgt s this)

theorem htCreate_eq_some (f : HTFunctions α) (sizes : List Nat) (lf : ℚ)
    {t : HashTable α} (h : htCreate f sizes lf = some t) :
    t.functions = f ∧ t.sizes = sizes ∧ t.index = 0 ∧ t.numItem = 0 ∧
      t.total = 0 ∧ t.lf = lf ∧
      t.ht = List.replicate (sizes.getD 0 0) [] := by
  unfold htCreate at h
  by_cases hc : 0 < sizes.length ∧ 0 < lf ∧ lf ≤ 1 ∧ setSizeArrayOk 0 sizes
  · rw [if_pos hc] at h
    cases h
    exact ⟨rfl, rfl, rfl, rfl, rfl, rfl, rfl⟩
  · rw [if_neg hc] at h
    cases h

/-- A freshly created table satisfies the representation invariant. -/
theorem htCreate_WF {f : HTFunctions α} {sizes : List Nat} {lf : ℚ}
    {t : HashTable α} (h : htCreate f sizes lf = some t) : WF t := by
  have hs := htCreate_isSome_iff f sizes lf
  rw [h] at hs
  rcases hs.mp (by rfl) with ⟨hne, hgt, hchain, hlf0, hlf1⟩
  obtain ⟨hfn, hsz, hidx, hnum, htot, hlf, hht⟩ := htCreate_eq_some f sizes lf h
  have hempty : t.entries = [] := by
    rw [entries, hht, List.flatten_replicate_nil]
  refine ⟨by rw [hsz]; exact hgt, by rw [hsz]; exact hchain, ?_, ?_, ?_, ?_,
    ?_, ?_⟩
  · rw [hidx, hsz]
    exact List.length_pos.mpr hne
  · rw [hht, List.length_replicate, cap, hidx, hsz]
  · rw [hnum, hempty]
    rfl
  · rw [htot, hempty]
    rfl
  · intro i e he
    rw [hht, getD_replicate_nil] at he
    cases he
  · rw [hempty]
    exact List.Pairwise.nil

end CreateHelpers

section IndexHelpers

variable {t : HashTable α} {x : α}

theorem htAdd_fst_sizes (t : HashTable α) (x : α) :
    (htAdd t x).1.sizes = t.sizes := by
  rw [htAdd_eq, addTail_sizes, checkRehash_sizes]

theorem htAdd_fst_functions (t : HashTable α) (x : α) :
    (htAdd t x).1.functions = t.functions := by
  rw [htAdd_eq, addTail_functions, checkRehash_functions]

theorem htAdd_fst_lf (t : HashTable α) (x : α) : (htAdd t x).1.lf = t.lf := by
  rw [htAdd_eq, addTail_lf, checkRehash_lf]

theorem htAdd_fst_index (t : HashTable α) (x : α) :
    (htAdd t x).1.index = t.index ∨
      ((htAdd t x).1.index = t.index + 1 ∧ t.index < t.sizes.length - 1) := by
  rw [htAdd_eq, addTail_index]
  exact checkRehash_index t

theorem htAdd_index_le (t : HashTable α) (x : α) :
    (htAdd t x).1.index ≤ t.index + 1 := by
  rcases htAdd_fst_index t x with h | ⟨h, _⟩ <;> omega

theorem htAdd_index_ge (t : HashTable α) (x : α) :
    t.index ≤ (htAdd t x).1.index := by
  rcases htAdd_fst_index t x with h | ⟨h, _⟩ <;> omega

theorem htAdd_index_lt (t : HashTable α) (x : α)
    (h : t.index < t.sizes.length) : (htAdd t x).1.index < t.sizes.length := by
  rcases htAdd_fst_index t x with h1 | ⟨h1, h2⟩ <;> omega

theorem htAddList_sizes (t : HashTable α) (xs : List α) :
    (htAddList t xs).sizes = t.sizes := by
  induction xs generalizing t with
  | nil => rfl
  | cons z xs ih =>
    rw [htAddList_cons, ih, htAdd_fst_sizes]

theorem htAddList_index_ge (t : HashTable α) (xs : List α) :
    t.index ≤ (htAddList t xs).index := by
  induction xs generalizing t with
  | nil => exact Nat.le_refl _
  | cons z xs ih =>
    rw [htAddList_cons]
    exact Nat.le_trans (htAdd_index_ge t z) (ih (htAdd t z).1)

theorem htAddList_index_lt (t : HashTable α) (xs : List α)
    (h : t.index < t.sizes.length) :
    (htAddList t xs).index < (htAddList t xs).sizes.length := by
  rw [htAddList_sizes]
  induction xs generalizing t with
  | nil => exact h
  | cons z xs ih =>
    rw [htAddList_cons]
    have h1 := htAdd_index_lt t z h
    rw [← htAdd_fst_sizes t z] at h1
    have := ih (htAdd t z).1 h1
    rwa [htAdd_fst_sizes] at this

/-- In a sorted schedule a later cursor reads a value at least as large. -/
theorem sizes_getD_mono {sizes : List Nat} (hchain : sizes.Chain' (· < ·))
    {i j : Nat} (hij : i ≤ j) (hj : j < sizes.length) :
    sizes.getD i 0 ≤ sizes.getD j 0 := by
  have hpair : sizes.Pairwise (· < ·) := List.chain'_iff_pairwise.mp hchain
  rcases Nat.lt_or_ge i j with hlt | hge
  · have hi : i < sizes.length := Nat.lt_trans hlt hj
    have := (List.pairwise_iff_getElem.mp hpair) i j hi hj hlt
    rw [List.getD_eq_getElem?_getD, List.getElem?_eq_getElem hi,
      List.getD_eq_getElem?_getD, List.getElem?_eq_getElem hj]
    exact Nat.le_of_lt this
  · have : i = j := Nat.le_antisymm hij hge
    subst this
    exact Nat.le_refl _

end IndexHelpers

section ToArrayHelpers

theorem toArray_eq_append :
    ∀ (chain arr : List (HTEntry α)), toArray arr chain = arr ++ chain := by
  intro chain
  induction chain with
  | nil => intro arr; simp [toArray]
  | cons e rest ih =>
    intro arr
    rw [toArray, ih]
    simp

theorem foldl_toArray_eq_flatten (L : List (List (HTEntry α))) :
    ∀ arr, L.foldl toArray arr = arr ++ L.flatten := by
  induction L with
  | nil => intro arr; simp
  | cons c L ih =>
    intro arr
    rw [List.foldl_cons, toArray_eq_append, ih]
    simp

theorem htToArray_arr (t : HashTable α) :
    t.ht.foldl toArray [] = t.entries := by
  rw [foldl_toArray_eq_flatten]
  simp [entries]

end ToArrayHelpers

section MetricsHelpers

theorem natMax_eq_if : ∀ a b : Nat, Nat.max a b = if a ≤ b then b else a :=
  fun _ _ => rfl

theorem foldl_metricsStep_fst :
    ∀ (L : List (List (HTEntry α))) (n m s : Nat),
      (L.foldl metricsStep (n, m, s)).1 =
        n + (L.filter (fun c => !c.isEmpty)).length := by
  intro L
  induction L with
  | nil => intro n m s; simp
  | cons c L ih =>
    intro n m s
    rw [List.foldl_cons]
    have hstep : metricsStep (n, m, s) c =
        ((if c.isEmpty then n else n + 1),
         (if c.length > m then c.length else m), s + c.length) := rfl
    rw [hstep, ih, List.filter_cons]
    by_cases hc : c.isEmpty
    · rw [if_pos hc, if_neg (by simp [hc])]
    · rw [if_neg hc, if_pos (by simp [Bool.not_eq_true _ ▸ hc]), List.length_cons]
      omega

theorem foldl_metricsStep_snd :
    ∀ (L : List (List (HTEntry α))) (n m s : Nat),
      (L.foldl metricsStep (n, m, s)).2.1 =
        Nat.max m ((L.map List.length).foldr Nat.max 0) := by
  intro L
  induction L with
  | nil =>
    intro n m s
    simp only [List.foldl_nil, List.map_nil, List.foldr_nil]
    rw [natMax_eq_if]
    split <;> omega
  | cons c L ih =>
    intro n m s
    rw [List.foldl_cons]
    have hstep : metricsStep (n, m, s) c =
        ((if c.isEmpty then n else n + 1),
         (if c.length > m then c.length else m), s + c.length) := rfl
    rw [hstep, ih, List.map_cons, List.foldr_cons]
    simp only [natMax_eq_if]
    split_ifs <;> omega

theorem foldl_metricsStep_thd :
    ∀ (L : List (List (HTEntry α))) (n m s : Nat),
      (L.foldl metricsStep (n, m, s)).2.2 = s + (L.map List.length).sum := by
  intro L
  induction L with
  | nil => intro n m s; simp
  | cons c L ih =>
    intro n m s
    rw [List.foldl_cons]
    have hstep : metricsStep (n, m, s) c =
        ((if c.isEmpty then n else n + 1),
         (if c.length > m then c.length else m), s + c.length) := rfl
    rw [hstep, ih, List.map_cons, List.sum_cons]
    omega

theorem foldr_max_le {l : List Nat} {a : Nat} (h : a ∈ l) :
    a ≤ l.foldr Nat.max 0 := by
  induction l with
  | nil => cases h
  | cons b l ih =>
    rw [List.foldr_cons, natMax_eq_if]
    rcases List.mem_cons.mp h with rfl | hmem
    · split <;> omega
    · have := ih hmem
      split <;> omega

theorem foldr_max_attained (l : List Nat) :
    l.foldr Nat.max 0 = 0 ∨ l.foldr Nat.max 0 ∈ l := by
  induction l with
  | nil => exact Or.inl rfl
  | cons b l ih =>
    rw [List.foldr_cons, natMax_eq_if]
    split
    · rcases ih with h0 | hmem
      · rw [h0]; exact Or.inl rfl
      · exact Or.inr (List.mem_cons_of_mem _ hmem)
    · exact Or.inr (List.mem_cons_self _ _)

end MetricsHelpers

section Preservation

variable {t : HashTable α} {x : α}

/-- `htAdd` preserves the representation invariant. -/
theorem htAdd_WF (hwf : WF t) (hg : GoodFns t.functions) (x : α) :
    WF (htAdd t x).1 := by
  by_cases hex : ∃ e ∈ t.entries, t.functions.compare e.data x = 0
  · obtain ⟨e₀, he₀, hm⟩ := hex
    obtain ⟨s₁, s₂, hs⟩ := List.append_of_mem he₀
    have hperm0 : t.entries.Perm (e₀ :: (s₁ ++ s₂)) := by
      rw [hs]
      exact List.perm_middle
    exact (htAdd_dup hwf hg hperm0 hm).2.1
  · push_neg at hex
    have habs : ∀ e ∈ t.entries, t.functions.compare e.data x ≠ 0 := hex
    exact (htAdd_new hwf hg habs).2.1

theorem htAddList_functions (t : HashTable α) (xs : List α) :
    (htAddList t xs).functions = t.functions := by
  induction xs generalizing t with
  | nil => rfl
  | cons z xs ih =>
    rw [htAddList_cons, ih, htAdd_fst_functions]

/-- Any insert sequence preserves the representation invariant. -/
theorem htAddList_WF (hwf : WF t) (hg : GoodFns t.functions) (xs : List α) :
    WF (htAddList t xs) := by
  induction xs generalizing t with
  | nil => exact hwf
  | cons z xs ih =>
    rw [htAddList_cons]
    refine ih (htAdd_WF hwf hg z) ?_
    rw [htAdd_fst_functions]
    exact hg

end Preservation

section Instances

/-- The concrete comparator kernel is an equivalence compatible with the
identity hash. -/
theorem exFns_good : GoodFns exFns := by
  refine ⟨?_, ?_, ?_, ?_⟩
  · intro x
    show (x : Int) - (x : Int) = 0
    omega
  · intro x y h
    show (y : Int) - (x : Int) = 0
    have hxy : (x : Int) - (y : Int) = 0 := h
    omega
  · intro x y z hxy hyz
    show (x : Int) - (z : Int) = 0
    have h1 : (x : Int) - (y : Int) = 0 := hxy
    have h2 : (y : Int) - (z : Int) = 0 := hyz
    omega
  · intro x y h
    show x = y
    have h1 : (x : Int) - (y : Int) = 0 := h
    omega

theorem exT0_create :
    htCreate exFns [10, 30, 999] (Rat.divInt 49 100) = some exT0 := rfl

theorem exT0_WF : WF exT0 := htCreate_WF exT0_create

/-- The ratio written with `Rat.divInt` in `checkRehash` is the ordinary
rational division of the counters. -/
theorem divInt_natCast_eq_div (n c : Nat) :
    Rat.divInt (n : Int) (c : Int) = (n : ℚ) / (c : ℚ) := by
  rw [Rat.divInt_eq_div]
  simp

end Instances

section Claims

variable {t : HashTable α} {x : α}

/-- Claim C1: inserting N values of the equivalence class of x (N = xs.length
plus the final y, so N ≥ 1) into a table not containing that class makes the
Nth htAdd return N, makes htLookUp report frequency N, raises totalEntries
by exactly N and uniqueEntries by exactly 1; and on any duplicate insert the
matched entry's frequency is incremented, totalCount is incremented, and
uniqueCount is unchanged. -/
theorem insertion_frequency_c1 (t : HashTable α) (x : α) (xs : List α)
    (y : α) (hwf : WF t) (hg : GoodFns t.functions)
    (habs : ∀ e ∈ t.entries, t.functions.compare e.data x ≠ 0)
    (hxs : ∀ z ∈ xs, t.functions.compare z x = 0)
    (hy : t.functions.compare y x = 0) :
    (htAdd (htAddList t xs) y).2 = xs.length + 1 ∧
    (htLookUp (htAddList t (xs ++ [y])) x).frequency = xs.length + 1 ∧
    htTotalEntries (htAddList t (xs ++ [y])) =
      htTotalEntries t + (xs.length + 1) ∧
    htUniqueEntries (htAddList t (xs ++ [y])) = htUniqueEntries t + 1 ∧
    (∀ (u : HashTable α), WF u → GoodFns u.functions →
      ∀ (e₀ : HTEntry α) (l : List (HTEntry α)) (z : α),
        u.entries.Perm (e₀ :: l) → u.functions.compare e₀.data z = 0 →
        (htAdd u z).2 = e₀.frequency + 1 ∧
        (htAdd u z).1.entries.Perm
          ((⟨e₀.data, e₀.frequency + 1⟩ : HTEntry α) :: l) ∧
        htTotalEntries (htAdd u z).1 = htTotalEntries u + 1 ∧
        htUniqueEntries (htAdd u z).1 = htUniqueEntries u) := by
  obtain ⟨h1, hcs⟩ := classState_main hwf hg habs xs y hxs hy
  obtain ⟨d, l, hd, hl, hperm, hwf', hfn, hsz, hlf, hnum, htot⟩ := hcs
  refine ⟨h1, ?_, ?_, ?_, ?_⟩
  · have hg' : GoodFns (htAddList t (xs ++ [y])).functions := by
      rw [hfn]; exact hg
    have hmem : (⟨d, xs.length + 1⟩ : HTEntry α) ∈
        (htAddList t (xs ++ [y])).entries :=
      hperm.mem_iff.mpr (List.mem_cons_self _ _)
    have hmatch : (htAddList t (xs ++ [y])).functions.compare
        (⟨d, xs.length + 1⟩ : HTEntry α).data x = 0 := by
      rw [hfn]; exact hd
    have hfound := htLookUp_found hwf' hg' hmem hmatch
    rw [hfound]
  · show (htAddList t (xs ++ [y])).total = t.total + (xs.length + 1)
    exact htot
  · show (htAddList t (xs ++ [y])).numItem = t.numItem + 1
    exact hnum
  · intro u hu hgu e₀ l' z hp hmz
    obtain ⟨k1, k2, k3, k4, k5, k6, k7, k8⟩ := htAdd_dup hu hgu hp hmz
    exact ⟨k1, k3, k5, k4⟩

/-- Witness for C1 at a concrete table: two inserts of the value 0 into the
freshly created table make the second htAdd return 2 and htLookUp report
frequency 2. -/
theorem insertion_frequency_c1_w :
    (htAdd (htAddList exT0 [0]) 0).2 = 2 ∧
    (htLookUp (htAddList exT0 ([0] ++ [0])) 0).frequency = 2 := by
  have h := insertion_frequency_c1 exT0 0 [0] 0 exT0_WF exFns_good
    (fun e he => absurd he (List.not_mem_nil e))
    (by decide) (by decide)
  exact ⟨h.1, h.2.1⟩

/-- Claim C2: htAdd rehashes exactly when the load factor is not 1, a larger
schedule entry exists, and the pre-insert uniqueCount over the current
capacity strictly exceeds the load factor; with schedule [10, 30, 999] and
load factor 49/100 the capacity is still 10 after five distinct inserts, the
sixth insert grows it to 30, and the sixth item is placed in its bucket
under the post-growth capacity (value 25 lands in bucket 25, not 5). -/
theorem growth_trigger_c2 (t : HashTable α) (x : α) :
    ((htAdd t x).1.index = t.index + 1 ↔
      (t.lf ≠ 1 ∧ t.index < t.sizes.length - 1 ∧
        (t.numItem : ℚ) / (t.sizes.getD t.index 0 : ℚ) > t.lf)) ∧
    ((htAdd t x).1.index = t.index ∨ (htAdd t x).1.index = t.index + 1) ∧
    htCreate exFns [10, 30, 999] (Rat.divInt 49 100) = some exT0 ∧
    htCapacity (htAddList exT0 [0, 1, 2, 3, 4]) = 10 ∧
    htCapacity (htAddList exT0 [0, 1, 2, 3, 4, 25]) = 30 ∧
    (htAddList exT0 [0, 1, 2, 3, 4, 25]).ht.getD 25 [] =
      [(⟨25, 1⟩ : HTEntry Nat)] := by
  refine ⟨?_, ?_, rfl, by decide, by decide, by decide⟩
  · rw [htAdd_eq, addTail_index, checkRehash_index_iff]
    unfold growthGuard
    rw [divInt_natCast_eq_div]
  · rcases htAdd_fst_index t x with h | ⟨h, _⟩
    · exact Or.inl h
    · exact Or.inr h

/-- Claim C3: a growth step loses and duplicates nothing (the stored entries
are a permutation of the old ones), every pre-growth entry is reachable in
the new array at hash(value) mod the new capacity, and lookups report the
same frequency after growth as before. -/
theorem growth_no_loss_c3 (t : HashTable α) (hwf : WF t)
    (hg : GoodFns t.functions) (hidx : t.index + 1 < t.sizes.length) :
    (rehash t).entries.Perm t.entries ∧
    (∀ e ∈ t.entries, e ∈ (rehash t).ht.getD
      (t.functions.hash e.data % t.sizes.getD (t.index + 1) 0) []) ∧
    (∀ e ∈ t.entries,
      (htLookUp (rehash t) e.data).frequency =
        (htLookUp t e.data).frequency) := by
  have hperm := rehash_entries_perm hwf hidx
  have hwfr := rehash_WF hwf hg hidx
  refine ⟨hperm, ?_, ?_⟩
  · intro e he
    have her : e ∈ (rehash t).entries := hperm.mem_iff.mpr he
    rcases mem_flatten_getD.mp her with ⟨i, hi, hmem⟩
    have hpl := rehash_placed hwf hidx i e hmem
    rw [hpl]
    exact hmem
  · intro e he
    have hgr : GoodFns (rehash t).functions := by
      rw [rehash_functions]; exact hg
    have h1 : htLookUp t e.data = ⟨some e.data, e.frequency⟩ :=
      htLookUp_found hwf hg he (hg.cmp_refl e.data)
    have h2 : htLookUp (rehash t) e.data = ⟨some e.data, e.frequency⟩ := by
      refine htLookUp_found hwfr hgr (hperm.mem_iff.mpr he) ?_
      rw [rehash_functions]
      exact hg.cmp_refl e.data
    rw [h1, h2]

/-- Witness for C3 at a concrete populated table. -/
theorem growth_no_loss_c3_w :
    (rehash (htAddList exT0 [0, 1, 2, 3, 4])).entries.Perm
      (htAddList exT0 [0, 1, 2, 3, 4]).entries := by
  have hwf5 : WF (htAddList exT0 [0, 1, 2, 3, 4]) :=
    htAddList_WF exT0_WF exFns_good [0, 1, 2, 3, 4]
  have hg5 : GoodFns (htAddList exT0 [0, 1, 2, 3, 4]).functions := by
    rw [htAddList_functions]
    exact exFns_good
  exact (growth_no_loss_c3 _ hwf5 hg5 (by decide)).1

/-- Claim C4: after construction, every insert sequence leaves the capacity
non-decreasing over time, the capacity is always an element of the schedule
passed to htCreate, and the schedule cursor only increases and stays below
the schedule length. -/
theorem capacity_monotone_c4 (f : HTFunctions α) (sizes : List Nat) (lf : ℚ)
    (t0 : HashTable α) (hc : htCreate f sizes lf = some t0)
    (xs ys : List α) :
    htCapacity (htAddList t0 xs) ≤ htCapacity (htAddList t0 (xs ++ ys)) ∧
    htCapacity (htAddList t0 xs) ∈ sizes ∧
    (htAddList t0 xs).index ≤ (htAddList t0 (xs ++ ys)).index ∧
    (htAddList t0 xs).index < sizes.length := by
  obtain ⟨hfn, hsz, hidx0, hnum, htot, hlf, hht⟩ :=
    htCreate_eq_some f sizes lf hc
  obtain ⟨hne, hgt, hchain, _, _⟩ :=
    (htCreate_isSome_iff f sizes lf).mp (by rw [hc]; rfl)
  have hlen0 : t0.index < t0.sizes.length := by
    rw [hidx0, hsz]
    exact List.length_pos.mpr hne
  have hsa : (htAddList t0 xs).sizes = sizes := by rw [htAddList_sizes, hsz]
  have hsb : (htAddList t0 (xs ++ ys)).sizes = sizes := by
    rw [htAddList_sizes, hsz]
  have hia : (htAddList t0 xs).index < sizes.length := by
    have h := htAddList_index_lt t0 xs hlen0
    rwa [htAddList_sizes, hsz] at h
  have hib : (htAddList t0 (xs ++ ys)).index < sizes.length := by
    have h := htAddList_index_lt t0 (xs ++ ys) hlen0
    rwa [htAddList_sizes, hsz] at h
  have hmono : (htAddList t0 xs).index ≤ (htAddList t0 (xs ++ ys)).index := by
    rw [htAddList_append]
    exact htAddList_index_ge _ ys
  refine ⟨?_, ?_, hmono, hia⟩
  · unfold htCapacity
    rw [hsa, hsb]
    exact sizes_getD_mono hchain hmono hib
  · unfold htCapacity
    rw [hsa]
    exact getD_mem_of_lt _ _ _ hia

/-- Witness for C4: the capacity after three inserts is in the schedule. -/
theorem capacity_monotone_c4_w :
    htCapacity (htAddList exT0 [0, 1, 2]) ∈ [10, 30, 999] :=
  (capacity_monotone_c4 exFns [10, 30, 999] (Rat.divInt 49 100) exT0
    exT0_create [0, 1, 2] []).2.1

/-- Claim C5: htToArray reports (through the size out-parameter) exactly
uniqueCount entries; the empty table produces the explicit no-array result
(and only it does); a produced array is exactly the stored entries, pairwise
in distinct equivalence classes, each carrying the frequency the table
currently reports through htLookUp; and every class htLookUp knows about
appears in the array with the same frequency. -/
theorem snapshot_roundtrip_c5 (t : HashTable α) (hwf : WF t)
    (hg : GoodFns t.functions) :
    (htToArray t).2 = htUniqueEntries t ∧
    ((htToArray t).1 = none ↔ htUniqueEntries t = 0) ∧
    (∀ arr, (htToArray t).1 = some arr →
      arr = t.entries ∧ arr.length = htUniqueEntries t ∧
      arr.Pairwise (fun a b => t.functions.compare a.data b.data ≠ 0) ∧
      ∀ e ∈ arr, htLookUp t e.data = ⟨some e.data, e.frequency⟩) ∧
    (∀ x, (htLookUp t x).frequency ≠ 0 →
      ∃ arr, (htToArray t).1 = some arr ∧ ∃ e ∈ arr,
        t.functions.compare e.data x = 0 ∧
        e.frequency = (htLookUp t x).frequency) := by
  have hfst : (htToArray t).1 =
      if t.entries.length = 0 then none else some t.entries := by
    show (if (t.ht.foldl toArray []).length = 0 then none
      else some (t.ht.foldl toArray [])) = _
    rw [htToArray_arr]
  have hsnd : (htToArray t).2 = t.entries.length := by
    show (t.ht.foldl toArray []).length = _
    rw [htToArray_arr]
  refine ⟨?_, ?_, ?_, ?_⟩
  · rw [hsnd]
    exact hwf.numItem_eq.symm
  · rw [hfst]
    by_cases h0 : t.entries.length = 0
    · rw [if_pos h0]
      simp only [true_iff]
      show t.numItem = 0
      rw [hwf.numItem_eq]
      exact h0
    · rw [if_neg h0]
      simp only [reduceCtorEq, false_iff]
      show ¬ t.numItem = 0
      rw [hwf.numItem_eq]
      exact h0
  · intro arr hsome
    rw [hfst] at hsome
    by_cases h0 : t.entries.length = 0
    · rw [if_pos h0] at hsome
      cases hsome
    · rw [if_neg h0] at hsome
      have harr : arr = t.entries := (Option.some.inj hsome).symm
      subst harr
      refine ⟨rfl, hwf.numItem_eq.symm, hwf.uniq, ?_⟩
      intro e he
      exact htLookUp_found hwf hg he (hg.cmp_refl e.data)
  · intro z hz
    rcases hfind : findEntry t.functions.compare z
        (t.ht.getD (t.functions.hash z % t.sizes.getD t.index 0) []) with
      _ | e
    · exfalso
      apply hz
      show (htLookUp t z).frequency = 0
      unfold htLookUp
      rw [hfind]
    · obtain ⟨hmemb, hmatch⟩ := findEntry_eq_some hfind
      have hment : e ∈ t.entries := mem_entries_of_mem_bucket hwf hmemb
      have h0 : ¬ t.entries.length = 0 := by
        intro hlen
        rw [List.length_eq_zero] at hlen
        rw [hlen] at hment
        cases hment
      have hlook : htLookUp t z = ⟨some e.data, e.frequency⟩ := by
        unfold htLookUp
        rw [hfind]
      refine ⟨t.entries, by rw [hfst, if_neg h0], e, hment, hmatch, ?_⟩
      rw [hlook]

/-- Witness for C5 at a concrete populated table. -/
theorem snapshot_roundtrip_c5_w :
    (htToArray (htAddList exT0 [0, 1, 2])).2 =
      htUniqueEntries (htAddList exT0 [0, 1, 2]) := by
  have hwf3 : WF (htAddList exT0 [0, 1, 2]) :=
    htAddList_WF exT0_WF exFns_good [0, 1, 2]
  have hg3 : GoodFns (htAddList exT0 [0, 1, 2]).functions := by
    rw [htAddList_functions]
    exact exFns_good
  exact (snapshot_roundtrip_c5 _ hwf3 hg3).1

/-- Claim C6: htLookUp scans the chain of the bucket selected by the hash
modulo the current capacity: either some first match exists and the result
is a shallow view of that entry, or no entry of the chain matches and the
result is the frequency-0 no-value sentinel; the table is not modified (the
embedding of htLookUp returns only an HTResult, never a table). -/
theorem lookup_behavior_c6 (t : HashTable α) (x : α) :
    (∃ l₁ e l₂,
      t.ht.getD (t.functions.hash x % t.sizes.getD t.index 0) [] =
        l₁ ++ e :: l₂ ∧
      (∀ e₁ ∈ l₁, t.functions.compare e₁.data x ≠ 0) ∧
      t.functions.compare e.data x = 0 ∧
      htLookUp t x = ⟨some e.data, e.frequency⟩) ∨
    ((∀ e ∈ t.ht.getD (t.functions.hash x % t.sizes.getD t.index 0) [],
        t.functions.compare e.data x ≠ 0) ∧
      htLookUp t x = ⟨none, 0⟩) := by
  rcases findEntry_first_match t.functions.compare x
      (t.ht.getD (t.functions.hash x % t.sizes.getD t.index 0) []) with
    ⟨hall, hnone⟩ | ⟨l₁, e, l₂, hdec, hl₁, hm, hfind⟩
  · refine Or.inr ⟨hall, ?_⟩
    unfold htLookUp
    rw [hnone]
  · refine Or.inl ⟨l₁, e, l₂, hdec, hl₁, hm, ?_⟩
    unfold htLookUp
    rw [hfind]

/-- Claim C7: htMetrics reports exactly the number of non-empty buckets, the
length of the longest chain, and the sum of all chain lengths divided by the
number of non-empty chains, with no special case for zero non-empty chains
(the division is applied unguarded; in C it produces NaN, in this `ℚ` model
the junk value of division by zero). -/
theorem metrics_exact_c7 (t : HashTable α) :
    htMetrics t = ⟨numberOfChainsSpec t, maxChainLengthSpec t,
      (sumChainLengthsSpec t : ℚ) / (numberOfChainsSpec t : ℚ)⟩ ∧
    (∀ c ∈ t.ht, c.length ≤ (htMetrics t).maxChainLength) ∧
    ((htMetrics t).maxChainLength = 0 ∨
      ∃ c ∈ t.ht, c.length = (htMetrics t).maxChainLength) := by
  have h1 : (htMetrics t).numberOfChains = numberOfChainsSpec t := by
    show (t.ht.foldl metricsStep (0, 0, 0)).1 = _
    rw [foldl_metricsStep_fst]
    unfold numberOfChainsSpec
    omega
  have h2 : (htMetrics t).maxChainLength = maxChainLengthSpec t := by
    show (t.ht.foldl metricsStep (0, 0, 0)).2.1 = _
    rw [foldl_metricsStep_snd, natMax_eq_if]
    unfold maxChainLengthSpec
    split <;> omega
  have h3 : (htMetrics t).avgChainLength =
      (sumChainLengthsSpec t : ℚ) / (numberOfChainsSpec t : ℚ) := by
    show (((t.ht.foldl metricsStep (0, 0, 0)).2.2 : Nat) : ℚ) /
      (((t.ht.foldl metricsStep (0, 0, 0)).1 : Nat) : ℚ) = _
    rw [foldl_metricsStep_thd, foldl_metricsStep_fst]
    unfold sumChainLengthsSpec numberOfChainsSpec
    norm_num
  refine ⟨?_, ?_, ?_⟩
  · have hsplit : htMetrics t = ⟨(htMetrics t).numberOfChains,
        (htMetrics t).maxChainLength, (htMetrics t).avgChainLength⟩ := rfl
    rw [hsplit, h1, h2, h3]
  · intro c hc
    rw [h2]
    exact foldr_max_le (List.mem_map_of_mem List.length hc)
  · rw [h2]
    unfold maxChainLengthSpec
    rcases foldr_max_attained (t.ht.map List.length) with h0 | hmem
    · exact Or.inl h0
    · rcases List.mem_map.mp hmem with ⟨c, hc, hlen⟩
      exact Or.inr ⟨c, hc, hlen⟩

/-- Claim C8: a rehash advances the schedule cursor by exactly one, and a
single htAdd call performs at most one growth step, never skipping a
schedule entry. -/
theorem single_step_growth_c8 (t : HashTable α) (x : α) :
    (rehash t).index = t.index + 1 ∧
    (htAdd t x).1.index ≤ t.index + 1 ∧
    ((htAdd t x).1.index = t.index ∨ (htAdd t x).1.index = t.index + 1) := by
  refine ⟨rfl, htAdd_index_le t x, ?_⟩
  rcases htAdd_fst_index t x with h | ⟨h, _⟩
  · exact Or.inl h
  · exact Or.inr h

/-- Claim C9: htCreate faults (returns the fault value `none`) exactly when
the schedule is empty, some size is not greater than 1 or not strictly
greater than its predecessor, or the load factor is outside (0, 1]; on
success the table carries copies of the schedule and function set, a bucket
array of sizes[0] empty slots, both counters zero, and cursor zero. -/
theorem creation_contract_c9 (f : HTFunctions α) (sizes : List Nat)
    (lf : ℚ) :
    ((htCreate f sizes lf).isSome ↔
      (sizes ≠ [] ∧ (∀ s ∈ sizes, 1 < s) ∧ sizes.Chain' (· < ·) ∧
        0 < lf ∧ lf ≤ 1)) ∧
    (∀ u, htCreate f sizes lf = some u →
      u.functions = f ∧ u.sizes = sizes ∧ u.index = 0 ∧ u.numItem = 0 ∧
      u.total = 0 ∧ u.lf = lf ∧
      u.ht = List.replicate (sizes.getD 0 0) []) :=
  ⟨htCreate_isSome_iff f sizes lf, fun _ h => htCreate_eq_some f sizes lf h⟩

/-- Witness for C9 at the concrete creation call. -/
theorem creation_contract_c9_w : exT0.sizes = [10, 30, 999] :=
  ((creation_contract_c9 exFns [10, 30, 999] (Rat.divInt 49 100)).2 exT0
    exT0_create).2.1

/-- Claim C10: a rehash changes only the cursor and the bucket array: the
counters, the schedule, the load factor, the function set and the multiset
of stored entries (values and frequencies) are unchanged, so
htUniqueEntries and htTotalEntries agree before and after growth. -/
theorem rehash_frame_c10 (t : HashTable α) (hwf : WF t)
    (hidx : t.index + 1 < t.sizes.length) :
    (rehash t).numItem = t.numItem ∧ (rehash t).total = t.total ∧
    (rehash t).sizes = t.sizes ∧ (rehash t).lf = t.lf ∧
    (rehash t).functions = t.functions ∧ (rehash t).index = t.index + 1 ∧
    (rehash t).entries.Perm t.entries ∧
    htUniqueEntries (rehash t) = htUniqueEntries t ∧
    htTotalEntries (rehash t) = htTotalEntries t :=
  ⟨rfl, rfl, rfl, rfl, rfl, rfl, rehash_entries_perm hwf hidx, rfl, rfl⟩

/-- Witness for C10 at the concrete table. -/
theorem rehash_frame_c10_w : (rehash exT0).numItem = exT0.numItem :=
  (rehash_frame_c10 exT0 exT0_WF (by decide)).1

end Claims

end HashTable
